import Mathlib

/-!
Verification of the attribute-validation core (`src/attr.rs`, `src/error.rs`).

Shallow embedding conventions:
* `proc_macro2::Span` is an opaque copyable location: embedded as `Nat`.
* `syn::Error::new(span, msg)` is a single diagnostic (message + span).
  A combined `syn::Error` (built by `syn::Error::combine`) is the ordered
  list of its sub-diagnostics, so `MaybeError` (a `VecDeque<syn::Error>`
  of single-message errors, as every push site in this crate pushes
  errors freshly made by `syn::Error::new`) is a `List Diagnostic`;
  `MaybeError::maybe` pops the front error and folds `combine` over the rest,
  which yields the whole deque in order, hence `some` of the full list.
* `HashMap<D, WithSpan<T>>` is embedded as the lookup function
  `D → Option (WithSpan T)`; `HashMap::insert` writes the new value and
  returns the previous one, exactly as in the Rust source.
* `HashSet` iteration order is unspecified in Rust; the embedding of
  `check_exclusive` fixes one concrete order (`List.dedup` of the
  discriminants in sequence order) for the `other_keys` join. No theorem
  below depends on that order when more than one other kind is present.
* The caller-supplied strum machinery (`T::Discriminant`, `Display`,
  `EnumIter`, `FromStr`) is embedded as explicit parameters: a
  discriminant projection `disc : T → D`, a display name
  `kindName : D → String`, and the declaration-order list of all kinds.
  strum's derived `FromStr` is exact-match lookup of the display name.
-/

/-- An opaque, copyable source location (`proc_macro2::Span`). -/
abbrev Span := Nat

/-- One diagnostic: a message plus the location it points at
(`syn::Error::new(span, msg)`). -/
structure Diagnostic where
  msg : String
  span : Span
deriving DecidableEq

/-- `WithSpan<T>` from `src/attr.rs`: a parsed value paired with the span it
was parsed at. -/
structure WithSpan (T : Type) where
  val : T
  span : Span
deriving DecidableEq

/-- `MaybeError` from `src/error.rs`: an ordered deque of diagnostics. -/
abbrev MaybeError := List Diagnostic

/-- `MaybeError::new()`: the empty accumulator. -/
def MaybeError.new : MaybeError := []

/-- `MaybeError::push_back` for an error freshly created by
`syn::Error::new` (a single diagnostic): appended at the back. -/
def MaybeError.push_back (e : MaybeError) (d : Diagnostic) : MaybeError :=
  e ++ [d]

/-- `MaybeError::push_front`: prepended at the front. -/
def MaybeError.push_front (e : MaybeError) (d : Diagnostic) : MaybeError :=
  d :: e

/-- `MaybeError::maybe()`: `None` on the empty deque; otherwise the deque is
drained front to back into one combined error whose ordered sub-diagnostics
are exactly the deque's contents. -/
def MaybeError.maybe (e : MaybeError) : Option (List Diagnostic) :=
  match e with
  | [] => none
  | d :: rest => some (d :: rest)

/-- Message of the diagnostic emitted at a duplicate's new occurrence. -/
def dupMsg {D : Type} (kindName : D → String) (k : D) : String :=
  "Duplicate attribute: `" ++ kindName k ++ "`"

/-- Message of the diagnostic pointing back at the occurrence the duplicate
replaced. -/
def prevMsg {D : Type} (kindName : D → String) (k : D) : String :=
  "previously `" ++ kindName k ++ "` defined here"

/-- Loop body of `unique` (`src/attr.rs` lines 50-63):
`seen.insert(key, attribute)` stores the new item and returns the prior one;
when a prior entry existed, two diagnostics are pushed to the back. -/
def uniqueStep {T D : Type} [DecidableEq D] (disc : T → D) (kindName : D → String)
    (st : (D → Option (WithSpan T)) × MaybeError) (a : WithSpan T) :
    (D → Option (WithSpan T)) × MaybeError :=
  let key := disc a.val
  let seen' : D → Option (WithSpan T) := fun d => if d = key then some a else st.1 d
  match st.1 key with
  | some prior =>
      (seen',
        (st.2.push_back (Diagnostic.mk (dupMsg kindName key) a.span)).push_back
          (Diagnostic.mk (prevMsg kindName key) prior.span))
  | none => (seen', st.2)

/-- `unique` from `src/attr.rs` (lines 41-66): fold the spanned items into a
discriminant-keyed map, pushing two diagnostics per duplicate encounter. -/
def unique {T D : Type} [DecidableEq D] (disc : T → D) (kindName : D → String)
    (parsed_attributes : List (WithSpan T)) :
    (D → Option (WithSpan T)) × Option (List Diagnostic) :=
  let r := parsed_attributes.foldl (uniqueStep disc kindName)
    ((fun _ => none), MaybeError.new)
  (r.1, r.2.maybe)

/-- The `other_keys` join of `check_exclusive` (`src/attr.rs` lines 122-126). -/
def otherKeysJoin {D : Type} (kindName : D → String) (keys : List D) : String :=
  String.intercalate ", " (keys.map (fun k => "`" ++ kindName k ++ "`"))

/-- Message of the diagnostic front-pushed at each occurrence of the
exclusive kind. -/
def exclusiveMsg {D : Type} (kindName : D → String) (exclusive : D)
    (other_keys : String) : String :=
  "Exclusive attribute. Remove either `" ++ kindName exclusive ++ "` or " ++ other_keys

/-- Message of the diagnostic back-pushed at each non-exclusive item. -/
def cannotMsg {D : Type} (kindName : D → String) (exclusive : D) : String :=
  "cannot be used with `" ++ kindName exclusive ++ "`"

/-- Loop body of `check_exclusive` (`src/attr.rs` lines 128-140): front-push
at an occurrence of the exclusive kind, back-push at any other item. -/
def exclusiveStep {T D : Type} [DecidableEq D] (disc : T → D) (exclusive : D)
    (msgE msgC : String) (acc : MaybeError) (a : WithSpan T) : MaybeError :=
  if disc a.val = exclusive then acc.push_front (Diagnostic.mk msgE a.span)
  else acc.push_back (Diagnostic.mk msgC a.span)

/-- `check_exclusive` from `src/attr.rs` (lines 107-144): collect the distinct
discriminants; if the exclusive one is present together with at least one
other, walk the collection in order with `exclusiveStep`. -/
def check_exclusive {T D : Type} [DecidableEq D] (disc : T → D) (kindName : D → String)
    (exclusive : D) (collection : List (WithSpan T)) :
    Unit × Option (List Diagnostic) :=
  let keys := (collection.map (fun a => disc a.val)).dedup
  let errors : MaybeError :=
    if exclusive ∈ keys ∧ keys.erase exclusive ≠ [] then
      collection.foldl
        (exclusiveStep disc exclusive
          (exclusiveMsg kindName exclusive (otherKeysJoin kindName (keys.erase exclusive)))
          (cannotMsg kindName exclusive))
        MaybeError.new
    else MaybeError.new
  ((), errors.maybe)

/-- `known_attribute` from `src/attr.rs` (lines 181-198). strum's derived
`FromStr` resolves an identifier by exact match against the display names of
the enumeration's kinds in declaration order; on failure the diagnostic lists
every kind's display name joined in that order. -/
def known_attribute {K : Type} (kinds : List K) (kindName : K → String)
    (identity : String) (identitySpan : Span) : Except Diagnostic K :=
  match kinds.find? (fun k => kindName k == identity) with
  | some k => Except.ok k
  | none => Except.error (Diagnostic.mk
      ("Unknown attribute: `" ++ identity ++ "`. Must be one of "
        ++ String.intercalate ", " (kinds.map (fun k => "`" ++ kindName k ++ "`")))
      identitySpan)

/-- One `syn::Attribute` block as far as `parse_attrs` inspects it: the
path's identifier (`attr.path().is_ident(namespace)`; a multi-segment path
matches no namespace string) and the body token stream, of type `B`. -/
structure SynAttr (B : Type) where
  pathIdent : String
  body : B
deriving DecidableEq

/-- `parse_attrs` from `src/attr.rs` (lines 253-276): keep the blocks whose
path identifier equals the namespace; parse each retained body with the
caller's parse routine (`parse_args_with(Punctuated::parse_terminated)`,
embedded as `parseArgs : B → Except Diagnostic (List T)`); push each parsed
item in order, or push the block's error and continue. -/
def parseStep {B T : Type} (parseArgs : B → Except Diagnostic (List T))
    (ns : String) (st : List T × MaybeError) (a : SynAttr B) :
    List T × MaybeError :=
  if a.pathIdent = ns then
    match parseArgs a.body with
    | Except.ok items => (st.1 ++ items, st.2)
    | Except.error e => (st.1, st.2.push_back e)
  else st

/-- `parse_attrs` as above, folding `parseStep` over the block list. -/
def parse_attrs {B T : Type} (parseArgs : B → Except Diagnostic (List T))
    (ns : String) (attrs : List (SynAttr B)) :
    List T × Option (List Diagnostic) :=
  let r := attrs.foldl (parseStep parseArgs ns) ([], MaybeError.new)
  (r.1, r.2.maybe)

/-- A concrete attribute-kind enumeration for witnesses, mirroring the
`ParseAttribute`/`KnownAttribute` example of the crate documentation. -/
inductive PKind where
  | rename
  | ignore
deriving DecidableEq

/-- Display names of the concrete kinds (strum `Display`). -/
def PKind.name : PKind → String
  | PKind.rename => "rename"
  | PKind.ignore => "ignore"

/-- A concrete attribute type for witnesses: `rename(String)` or `ignore`. -/
inductive PAttr where
  | rename (value : String)
  | ignore
deriving DecidableEq

/-- Discriminant projection of the concrete attribute type. -/
def PAttr.disc : PAttr → PKind
  | PAttr.rename _ => PKind.rename
  | PAttr.ignore => PKind.ignore

/-! ## Characterizations used by the theorems -/

/-- The most recent occurrence in `items` whose discriminant is `d`; this is
what `unique`'s map holds for `d` after processing `items`. -/
def lastWith {T D : Type} [DecidableEq D] (disc : T → D) (d : D)
    (items : List (WithSpan T)) : Option (WithSpan T) :=
  items.reverse.find? (fun a => disc a.val == d)

/-- The diagnostics of `unique`, computed independently of its map-carrying
fold: walking `items` with the already-processed prefix `pre` at hand, a
duplicate encounter contributes its pair of diagnostics, the back-reference
pointing at the most recent prior occurrence of the same discriminant. -/
def expectedUniqueErrs {T D : Type} [DecidableEq D] (disc : T → D)
    (kindName : D → String) (pre : List (WithSpan T)) :
    List (WithSpan T) → List Diagnostic
  | [] => []
  | a :: rest =>
    (match lastWith disc (disc a.val) pre with
     | some prior =>
        [Diagnostic.mk (dupMsg kindName (disc a.val)) a.span,
         Diagnostic.mk (prevMsg kindName (disc a.val)) prior.span]
     | none => []) ++ expectedUniqueErrs disc kindName (pre ++ [a]) rest

/-- The items `parse_attrs` collects, computed block by block: a matching
block contributes its successfully parsed items (or nothing on a parse
failure), a non-matching block contributes nothing. -/
def collectItems {B T : Type} (parseArgs : B → Except Diagnostic (List T))
    (ns : String) : List (SynAttr B) → List T
  | [] => []
  | a :: rest =>
    (if a.pathIdent = ns then
      (match parseArgs a.body with
       | Except.ok items => items
       | Except.error _ => [])
     else []) ++ collectItems parseArgs ns rest

/-- The diagnostics `parse_attrs` accumulates, computed block by block: a
matching block whose body fails to parse contributes its error, every other
block contributes nothing. -/
def collectErrs {B T : Type} (parseArgs : B → Except Diagnostic (List T))
    (ns : String) : List (SynAttr B) → List Diagnostic
  | [] => []
  | a :: rest =>
    (if a.pathIdent = ns then
      (match parseArgs a.body with
       | Except.ok _ => []
       | Except.error e => [e])
     else []) ++ collectErrs parseArgs ns rest

/-- One push operation against a `MaybeError`: `push_back` of an error made
by `syn::Error::new`, or `push_front` of such an error. -/
inductive PushOp where
  | back (d : Diagnostic)
  | front (d : Diagnostic)
deriving DecidableEq

/-- The diagnostic a push operation carries. -/
def PushOp.diag : PushOp → Diagnostic
  | PushOp.back d => d
  | PushOp.front d => d

/-- Run a sequence of pushes against a fresh `MaybeError`. -/
def applyOps (ops : List PushOp) : MaybeError :=
  ops.foldl
    (fun e op => match op with
      | PushOp.back d => e.push_back d
      | PushOp.front d => e.push_front d)
    MaybeError.new

theorem maybe_eq_none_iff (e : MaybeError) : e.maybe = none ↔ e = [] := by
  cases e <;> simp [MaybeError.maybe]

theorem maybe_of_ne_nil (e : MaybeError) (h : e ≠ []) : e.maybe = some e := by
  cases e with
  | nil => exact absurd rfl h
  | cons d rest => rfl

theorem lastWith_nil {T D : Type} [DecidableEq D] (disc : T → D) (d : D) :
    lastWith disc d [] = none := rfl

theorem lastWith_append_singleton {T D : Type} [DecidableEq D] (disc : T → D)
    (d : D) (pre : List (WithSpan T)) (a : WithSpan T) :
    lastWith disc d (pre ++ [a])
      = if disc a.val = d then some a else lastWith disc d pre := by
  unfold lastWith
  have hrev : (pre ++ [a]).reverse = a :: pre.reverse := by simp
  rw [hrev]
  cases hb : disc a.val == d with
  | true =>
      have h : disc a.val = d := by simpa using hb
      simp [List.find?, hb, h]
  | false =>
      have h : ¬ disc a.val = d := by simpa using hb
      simp [List.find?, hb, h]

theorem unique_foldl_spec {T D : Type} [DecidableEq D] (disc : T → D)
    (kindName : D → String) (items : List (WithSpan T)) :
    ∀ (pre : List (WithSpan T)) (st : (D → Option (WithSpan T)) × MaybeError),
      (∀ d, st.1 d = lastWith disc d pre) →
      (∀ d, (items.foldl (uniqueStep disc kindName) st).1 d
          = lastWith disc d (pre ++ items)) ∧
      (items.foldl (uniqueStep disc kindName) st).2
          = st.2 ++ expectedUniqueErrs disc kindName pre items := by
  induction items with
  | nil =>
    intro pre st h
    refine ⟨fun d => ?_, by simp [expectedUniqueErrs]⟩
    simpa using h d
  | cons a rest ih =>
    intro pre st h
    have hkey := h (disc a.val)
    have hnext : ∀ d, (if d = disc a.val then some a else st.1 d)
        = lastWith disc d (pre ++ [a]) := by
      intro d
      rw [lastWith_append_singleton]
      by_cases hd : disc a.val = d
      · rw [if_pos hd.symm, if_pos hd]
      · rw [if_neg (fun hc => hd hc.symm), if_neg hd, h d]
    cases hp : st.1 (disc a.val) with
    | some prior =>
      have hstep : (a :: rest).foldl (uniqueStep disc kindName) st
          = rest.foldl (uniqueStep disc kindName)
              ((fun d => if d = disc a.val then some a else st.1 d),
               st.2 ++ [Diagnostic.mk (dupMsg kindName (disc a.val)) a.span,
                        Diagnostic.mk (prevMsg kindName (disc a.val)) prior.span]) := by
        simp [List.foldl_cons, uniqueStep, hp, MaybeError.push_back]
      rw [hstep]
      obtain ⟨h1, h2⟩ := ih (pre ++ [a])
        ((fun d => if d = disc a.val then some a else st.1 d),
         st.2 ++ [Diagnostic.mk (dupMsg kindName (disc a.val)) a.span,
                  Diagnostic.mk (prevMsg kindName (disc a.val)) prior.span])
        (fun d => hnext d)
      refine ⟨fun d => ?_, ?_⟩
      · rw [h1 d]
        congr 1
        simp
      · rw [h2]
        have hl : lastWith disc (disc a.val) pre = some prior := by
          rw [← hkey]; exact hp
        simp [expectedUniqueErrs, hl]
    | none =>
      have hstep : (a :: rest).foldl (uniqueStep disc kindName) st
          = rest.foldl (uniqueStep disc kindName)
              ((fun d => if d = disc a.val then some a else st.1 d), st.2) := by
        simp [List.foldl_cons, uniqueStep, hp]
      rw [hstep]
      obtain ⟨h1, h2⟩ := ih (pre ++ [a])
        ((fun d => if d = disc a.val then some a else st.1 d), st.2)
        (fun d => hnext d)
      refine ⟨fun d => ?_, ?_⟩
      · rw [h1 d]
        congr 1
        simp
      · rw [h2]
        have hl : lastWith disc (disc a.val) pre = none := by
          rw [← hkey]; exact hp
        simp [expectedUniqueErrs, hl]

theorem unique_map_eq {T D : Type} [DecidableEq D] (disc : T → D)
    (kindName : D → String) (items : List (WithSpan T)) (d : D) :
    (unique disc kindName items).1 d = lastWith disc d items := by
  have := (unique_foldl_spec disc kindName items []
    ((fun _ => none), MaybeError.new) (fun d => rfl)).1 d
  simpa [unique] using this

theorem unique_errs_eq {T D : Type} [DecidableEq D] (disc : T → D)
    (kindName : D → String) (items : List (WithSpan T)) :
    (unique disc kindName items).2
      = MaybeError.maybe (expectedUniqueErrs disc kindName [] items) := by
  have := (unique_foldl_spec disc kindName items []
    ((fun _ => none), MaybeError.new) (fun d => rfl)).2
  simp only [unique]
  rw [this]
  simp [MaybeError.new]

theorem lastWith_eq_none_iff {T D : Type} [DecidableEq D] (disc : T → D)
    (d : D) (pre : List (WithSpan T)) :
    lastWith disc d pre = none ↔ ∀ a ∈ pre, disc a.val ≠ d := by
  simp [lastWith, List.find?_eq_none, List.mem_reverse]

theorem expectedUniqueErrs_eq_nil_iff {T D : Type} [DecidableEq D] (disc : T → D)
    (kindName : D → String) (items : List (WithSpan T)) :
    ∀ pre : List (WithSpan T),
      expectedUniqueErrs disc kindName pre items = [] ↔
        ((items.map fun a => disc a.val).Nodup ∧
          ∀ a ∈ items, lastWith disc (disc a.val) pre = none) := by
  induction items with
  | nil =>
    intro pre
    simp [expectedUniqueErrs]
  | cons a rest ih =>
    intro pre
    simp only [expectedUniqueErrs]
    cases hl : lastWith disc (disc a.val) pre with
    | some prior =>
      constructor
      · intro hcontra
        simp at hcontra
      · rintro ⟨-, hall⟩
        have := hall a (List.mem_cons_self a rest)
        rw [hl] at this
        exact Option.noConfusion this
    | none =>
      rw [List.nil_append, ih (pre ++ [a])]
      constructor
      · rintro ⟨hnd, hall⟩
        refine ⟨?_, ?_⟩
        · rw [List.map_cons, List.nodup_cons]
          refine ⟨?_, hnd⟩
          rw [List.mem_map]
          rintro ⟨b, hb, hbeq⟩
          have hball := hall b hb
          rw [lastWith_append_singleton, if_pos hbeq.symm] at hball
          exact Option.noConfusion hball
        · intro b hb
          rcases List.mem_cons.mp hb with hba | hbr
          · rw [hba]
            exact hl
          · have := hall b hbr
            rw [lastWith_append_singleton] at this
            by_cases hc : disc a.val = disc b.val
            · rw [if_pos hc] at this
              exact Option.noConfusion this
            · rwa [if_neg hc] at this
      · rintro ⟨hnd, hall⟩
        rw [List.map_cons, List.nodup_cons] at hnd
        refine ⟨hnd.2, ?_⟩
        intro b hb
        rw [lastWith_append_singleton]
        have hbne : ¬ disc a.val = disc b.val := by
          intro hc
          exact hnd.1 (List.mem_map.mpr ⟨b, hb, hc.symm⟩)
        rw [if_neg hbne]
        exact hall b (List.mem_cons_of_mem a hb)

/-! ## Claim theorems: duplicate detector (`unique`) -/

/-- C1, counterexample: with two `rename` items, the mapping returned by
`unique` holds the second occurrence (value "b", span 1), not the first
occurrence (value "a", span 0) as the claim states; so the first-seen
occurrence is the one absent from the mapping. -/
theorem unique_keeps_second_not_first :
    (unique PAttr.disc PKind.name
      [WithSpan.mk (PAttr.rename "a") 0, WithSpan.mk (PAttr.rename "b") 1]).1
      PKind.rename = some (WithSpan.mk (PAttr.rename "b") 1) ∧
    some (WithSpan.mk (PAttr.rename "b") 1) ≠ some (WithSpan.mk (PAttr.rename "a") 0) := by
  decide

/-- C1 (amended): for every input sequence, the mapping returned by `unique`
contains, for each discriminant, the last-seen occurrence with that
discriminant (earlier occurrences are replaced), and the optional error is
present exactly when some discriminant occurs twice, i.e. duplicates are
dropped from the mapping but still produce diagnostics. -/
theorem unique_mapping_keeps_last_occurrence {T D : Type} [DecidableEq D]
    (disc : T → D) (kindName : D → String) (items : List (WithSpan T)) :
    (∀ d, (unique disc kindName items).1 d = lastWith disc d items) ∧
    ((unique disc kindName items).2 ≠ none ↔
      ¬ (items.map fun a => disc a.val).Nodup) := by
  refine ⟨fun d => unique_map_eq disc kindName items d, ?_⟩
  rw [unique_errs_eq]
  rw [Ne, maybe_eq_none_iff, expectedUniqueErrs_eq_nil_iff]
  constructor
  · intro hne hnd
    exact hne ⟨hnd, fun a _ => rfl⟩
  · rintro hnd ⟨h1, -⟩
    exact hnd h1

/-- C2, counterexample: three `rename` items at spans 0, 1, 2. The second
duplicate encounter emits its "previously `rename` defined here" diagnostic
at span 1 (the occurrence the map replaced), not at span 0, the first
occurrence's retained span as the claim states. -/
theorem unique_previously_span_counterexample :
    (unique PAttr.disc PKind.name
      [WithSpan.mk (PAttr.rename "a") 0, WithSpan.mk (PAttr.rename "b") 1,
       WithSpan.mk (PAttr.rename "c") 2]).2
      = some
        [Diagnostic.mk (dupMsg PKind.name PKind.rename) 1,
         Diagnostic.mk (prevMsg PKind.name PKind.rename) 0,
         Diagnostic.mk (dupMsg PKind.name PKind.rename) 2,
         Diagnostic.mk (prevMsg PKind.name PKind.rename) 1] ∧
    Diagnostic.mk (prevMsg PKind.name PKind.rename) 1
      ≠ Diagnostic.mk (prevMsg PKind.name PKind.rename) 0 := by
  decide

/-- C2 (amended): on every duplicate encounter `unique` emits exactly two
diagnostics in fixed order — "Duplicate attribute" at the new occurrence's
span, then "previously ... defined here" at the span of the most recent
preceding occurrence of that discriminant (the mapping entry it replaced) —
as captured by `expectedUniqueErrs`; in particular a sequence of exactly two
items sharing a discriminant yields exactly those two diagnostics in that
order, the back-reference pointing at the first item. -/
theorem unique_duplicate_pair_diagnostics {T D : Type} [DecidableEq D]
    (disc : T → D) (kindName : D → String) :
    (∀ items : List (WithSpan T),
      (unique disc kindName items).2
        = MaybeError.maybe (expectedUniqueErrs disc kindName [] items)) ∧
    (∀ x y : WithSpan T, disc x.val = disc y.val →
      (unique disc kindName [x, y]).2
        = some [Diagnostic.mk (dupMsg kindName (disc y.val)) y.span,
                Diagnostic.mk (prevMsg kindName (disc y.val)) x.span]) := by
  refine ⟨fun items => unique_errs_eq disc kindName items, fun x y hxy => ?_⟩
  rw [unique_errs_eq]
  simp [expectedUniqueErrs, lastWith, List.find?, hxy, MaybeError.maybe]

/-- C2, witness for the amended theorem's hypothesis: two `rename` items. -/
theorem unique_duplicate_pair_diagnostics_witness :
    PAttr.disc (PAttr.rename "a") = PAttr.disc (PAttr.rename "b") ∧
    (unique PAttr.disc PKind.name
      [WithSpan.mk (PAttr.rename "a") 0, WithSpan.mk (PAttr.rename "b") 1]).2
      = some [Diagnostic.mk (dupMsg PKind.name (PAttr.disc (PAttr.rename "b"))) 1,
              Diagnostic.mk (prevMsg PKind.name (PAttr.disc (PAttr.rename "b"))) 0] :=
  ⟨by decide,
   (unique_duplicate_pair_diagnostics PAttr.disc PKind.name).2
     (WithSpan.mk (PAttr.rename "a") 0) (WithSpan.mk (PAttr.rename "b") 1) (by decide)⟩

/-- C8: if no discriminant repeats in the sequence, `unique` returns a
mapping with exactly one entry per occurring discriminant (the lookup is
populated exactly at the occurring discriminants) and no diagnostic. -/
theorem unique_no_duplicates_clean {T D : Type} [DecidableEq D]
    (disc : T → D) (kindName : D → String) (items : List (WithSpan T))
    (h : (items.map fun a => disc a.val).Nodup) :
    (∀ d, ((unique disc kindName items).1 d).isSome ↔
        d ∈ items.map fun a => disc a.val) ∧
    (unique disc kindName items).2 = none := by
  constructor
  · intro d
    rw [unique_map_eq]
    unfold lastWith
    rw [List.find?_isSome]
    simp [List.mem_reverse]
  · rw [unique_errs_eq]
    have hnil : expectedUniqueErrs disc kindName [] items = [] := by
      rw [expectedUniqueErrs_eq_nil_iff]
      exact ⟨h, fun a _ => rfl⟩
    rw [hnil]
    rfl

/-- C8, witness: a `rename` item and an `ignore` item, no repeated
discriminant. -/
theorem unique_no_duplicates_clean_witness :
    (([WithSpan.mk (PAttr.rename "x") 0, WithSpan.mk PAttr.ignore 1].map
        fun a => PAttr.disc a.val).Nodup) ∧
    ((∀ d, ((unique PAttr.disc PKind.name
        [WithSpan.mk (PAttr.rename "x") 0, WithSpan.mk PAttr.ignore 1]).1 d).isSome ↔
        d ∈ [WithSpan.mk (PAttr.rename "x") 0, WithSpan.mk PAttr.ignore 1].map
          fun a => PAttr.disc a.val) ∧
      (unique PAttr.disc PKind.name
        [WithSpan.mk (PAttr.rename "x") 0, WithSpan.mk PAttr.ignore 1]).2 = none) :=
  ⟨by decide,
   unique_no_duplicates_clean PAttr.disc PKind.name
     [WithSpan.mk (PAttr.rename "x") 0, WithSpan.mk PAttr.ignore 1] (by decide)⟩

/-! ## Characterization of `check_exclusive`'s diagnostic order -/

theorem exclusive_foldl_spec {T D : Type} [DecidableEq D] (disc : T → D)
    (E : D) (msgE msgC : String) (collection : List (WithSpan T)) :
    ∀ A B : MaybeError,
      collection.foldl (exclusiveStep disc E msgE msgC) (A ++ B)
        = (((collection.filter fun a => disc a.val == E).reverse).map
            (fun a => Diagnostic.mk msgE a.span) ++ A)
          ++ (B ++ (collection.filter fun a => ! (disc a.val == E)).map
            (fun a => Diagnostic.mk msgC a.span)) := by
  induction collection with
  | nil =>
    intro A B
    simp
  | cons a rest ih =>
    intro A B
    by_cases h : disc a.val = E
    · have hstep : exclusiveStep disc E msgE msgC (A ++ B) a
          = (Diagnostic.mk msgE a.span :: A) ++ B := by
        simp [exclusiveStep, h, MaybeError.push_front]
      rw [List.foldl_cons, hstep, ih (Diagnostic.mk msgE a.span :: A) B]
      simp [h]
    · have hstep : exclusiveStep disc E msgE msgC (A ++ B) a
          = A ++ (B ++ [Diagnostic.mk msgC a.span]) := by
        simp [exclusiveStep, h, MaybeError.push_back]
      rw [List.foldl_cons, hstep, ih A (B ++ [Diagnostic.mk msgC a.span])]
      simp [h]

theorem check_exclusive_pos {T D : Type} [DecidableEq D] (disc : T → D)
    (kindName : D → String) (E : D) (collection : List (WithSpan T))
    (h1 : ∃ a ∈ collection, disc a.val = E)
    (h2 : ∃ a ∈ collection, disc a.val ≠ E) :
    (check_exclusive disc kindName E collection).2
      = some ((((collection.filter fun a => disc a.val == E).reverse).map
            (fun a => Diagnostic.mk
              (exclusiveMsg kindName E (otherKeysJoin kindName
                (((collection.map fun a => disc a.val).dedup).erase E)))
              a.span))
          ++ ((collection.filter fun a => ! (disc a.val == E)).map
            (fun a => Diagnostic.mk (cannotMsg kindName E) a.span))) := by
  obtain ⟨x, hx, hxE⟩ := h1
  obtain ⟨y, hy, hyE⟩ := h2
  have hmemE : E ∈ (collection.map fun a => disc a.val).dedup := by
    rw [List.mem_dedup, List.mem_map]
    exact ⟨x, hx, hxE⟩
  have hmemO : disc y.val ∈ ((collection.map fun a => disc a.val).dedup).erase E := by
    rw [List.mem_erase_of_ne hyE, List.mem_dedup, List.mem_map]
    exact ⟨y, hy, rfl⟩
  have hcond : E ∈ (collection.map fun a => disc a.val).dedup ∧
      ((collection.map fun a => disc a.val).dedup).erase E ≠ [] :=
    ⟨hmemE, List.ne_nil_of_mem hmemO⟩
  have hfold := exclusive_foldl_spec disc E
    (exclusiveMsg kindName E (otherKeysJoin kindName
      (((collection.map fun a => disc a.val).dedup).erase E)))
    (cannotMsg kindName E) collection [] []
  simp only [List.append_nil, List.nil_append] at hfold
  have hne : (((collection.filter fun a => disc a.val == E).reverse).map
        (fun a => Diagnostic.mk
          (exclusiveMsg kindName E (otherKeysJoin kindName
            (((collection.map fun a => disc a.val).dedup).erase E)))
          a.span))
      ++ ((collection.filter fun a => ! (disc a.val == E)).map
        (fun a => Diagnostic.mk (cannotMsg kindName E) a.span)) ≠ [] := by
    intro hnil
    rcases List.append_eq_nil.mp hnil with ⟨hl, -⟩
    have hxf : x ∈ collection.filter fun a => disc a.val == E := by
      rw [List.mem_filter]
      exact ⟨hx, by simp [hxE]⟩
    rw [List.map_eq_nil_iff, List.reverse_eq_nil_iff] at hl
    rw [hl] at hxf
    exact List.not_mem_nil x hxf
  simp only [check_exclusive, if_pos hcond, MaybeError.new]
  rw [hfold]
  exact maybe_of_ne_nil _ hne

theorem otherKeysJoin_singleton {D : Type} (kindName : D → String) (d : D) :
    otherKeysJoin kindName [d] = "`" ++ kindName d ++ "`" := by
  simp [otherKeysJoin, String.intercalate, String.intercalate.go]

theorem nodup_all_eq_erase_nil {D : Type} [DecidableEq D] (keys : List D) (E : D)
    (hnd : keys.Nodup) (hall : ∀ k ∈ keys, k = E) : keys.erase E = [] := by
  cases keys with
  | nil => rfl
  | cons k rest =>
    have hkE : k = E := hall k (List.mem_cons_self k rest)
    have hrest : rest = [] := by
      cases rest with
      | nil => rfl
      | cons r rs =>
        have hrE : r = E := hall r (by simp)
        rw [List.nodup_cons] at hnd
        exact absurd (show k ∈ r :: rs by
          rw [hkE, ← hrE]; exact List.mem_cons_self r rs) hnd.1
    subst hrest
    subst hkE
    exact List.erase_cons_head k []

/-! ## Claim theorems: exclusivity checker (`check_exclusive`) -/

/-- C5, counterexample: a sequence with two `ignore` items (the exclusive
kind) and one `rename` item carries at least one exclusive item and items of
exactly one other discriminant, yet `check_exclusive` emits three
diagnostics, not exactly two as the claim states. -/
theorem check_exclusive_two_diag_counterexample :
    ((check_exclusive PAttr.disc PKind.name PKind.ignore
      [WithSpan.mk PAttr.ignore 0, WithSpan.mk PAttr.ignore 1,
       WithSpan.mk (PAttr.rename "v") 2]).2.map List.length) = some 3 ∧
    (3 : Nat) ≠ 2 := by
  decide

/-- C5 (amended): for every sequence consisting of exactly one item of the
exclusive discriminant E and exactly one item of a single other discriminant
(in either order), `check_exclusive` returns exactly two diagnostics, in
order: "Exclusive attribute. Remove either `E` or `O`" at the exclusive
item's span, then "cannot be used with `E`" at the other item's span. -/
theorem check_exclusive_single_pair {T D : Type} [DecidableEq D] (disc : T → D)
    (kindName : D → String) (E : D) (x y : WithSpan T)
    (hx : disc x.val = E) (hy : disc y.val ≠ E) :
    (check_exclusive disc kindName E [x, y]).2
      = some [Diagnostic.mk
                (exclusiveMsg kindName E ("`" ++ kindName (disc y.val) ++ "`")) x.span,
              Diagnostic.mk (cannotMsg kindName E) y.span] ∧
    (check_exclusive disc kindName E [y, x]).2
      = some [Diagnostic.mk
                (exclusiveMsg kindName E ("`" ++ kindName (disc y.val) ++ "`")) x.span,
              Diagnostic.mk (cannotMsg kindName E) y.span] := by
  have hyE : ¬ (disc y.val == E) = true := by simp [hy]
  have hxE : (disc x.val == E) = true := by simp [hx]
  constructor
  · have hpos := check_exclusive_pos disc kindName E [x, y]
      ⟨x, List.mem_cons_self x [y], hx⟩ ⟨y, by simp, hy⟩
    have hkeys : (([x, y].map fun a => disc a.val).dedup).erase E = [disc y.val] := by
      have hmap : [x, y].map (fun a => disc a.val) = [E, disc y.val] := by
        simp [hx]
      rw [hmap]
      have hne : ¬ E = disc y.val := fun hc => hy hc.symm
      have hnm : E ∉ [disc y.val] := by simp [hne]
      have hdd : List.dedup [E, disc y.val] = [E, disc y.val] := by
        rw [List.dedup_cons_of_not_mem hnm]
        simp
      rw [hdd]
      exact List.erase_cons_head E [disc y.val]
    rw [hkeys, otherKeysJoin_singleton] at hpos
    simpa [List.filter, hxE, hyE] using hpos
  · have hpos := check_exclusive_pos disc kindName E [y, x]
      ⟨x, by simp, hx⟩ ⟨y, List.mem_cons_self y [x], hy⟩
    have hkeys : (([y, x].map fun a => disc a.val).dedup).erase E = [disc y.val] := by
      have hmap : [y, x].map (fun a => disc a.val) = [disc y.val, E] := by
        simp [hx]
      rw [hmap]
      have hnm : disc y.val ∉ [E] := by simp [hy]
      have hdd : List.dedup [disc y.val, E] = [disc y.val, E] := by
        rw [List.dedup_cons_of_not_mem hnm]
        simp
      rw [hdd]
      rw [List.erase_cons_tail, List.erase_cons_head]
      simp [hy]
    rw [hkeys, otherKeysJoin_singleton] at hpos
    simpa [List.filter, hxE, hyE] using hpos

/-- C5, witness for the amended theorem: one `ignore` item (exclusive) and
one `rename` item. -/
theorem check_exclusive_single_pair_witness :
    PAttr.disc (WithSpan.mk PAttr.ignore 0).val = PKind.ignore ∧
    PAttr.disc (WithSpan.mk (PAttr.rename "v") 1).val ≠ PKind.ignore ∧
    ((check_exclusive PAttr.disc PKind.name PKind.ignore
      [WithSpan.mk PAttr.ignore 0, WithSpan.mk (PAttr.rename "v") 1]).2
      = some [Diagnostic.mk
                (exclusiveMsg PKind.name PKind.ignore
                  ("`" ++ PKind.name (PAttr.disc (WithSpan.mk (PAttr.rename "v") 1).val) ++ "`")) 0,
              Diagnostic.mk (cannotMsg PKind.name PKind.ignore) 1] ∧
    (check_exclusive PAttr.disc PKind.name PKind.ignore
      [WithSpan.mk (PAttr.rename "v") 1, WithSpan.mk PAttr.ignore 0]).2
      = some [Diagnostic.mk
                (exclusiveMsg PKind.name PKind.ignore
                  ("`" ++ PKind.name (PAttr.disc (WithSpan.mk (PAttr.rename "v") 1).val) ++ "`")) 0,
              Diagnostic.mk (cannotMsg PKind.name PKind.ignore) 1]) :=
  ⟨by decide, by decide,
   check_exclusive_single_pair PAttr.disc PKind.name PKind.ignore
     (WithSpan.mk PAttr.ignore 0) (WithSpan.mk (PAttr.rename "v") 1)
     (by decide) (by decide)⟩

/-- C6: if the exclusive discriminant is absent from the sequence, or is the
only discriminant present (however many items carry it), `check_exclusive`
produces no diagnostics. -/
theorem check_exclusive_absent_or_alone_none {T D : Type} [DecidableEq D]
    (disc : T → D) (kindName : D → String) (E : D) (collection : List (WithSpan T))
    (h : (∀ a ∈ collection, disc a.val ≠ E) ∨ (∀ a ∈ collection, disc a.val = E)) :
    (check_exclusive disc kindName E collection).2 = none := by
  have hcond : ¬ (E ∈ (collection.map fun a => disc a.val).dedup ∧
      ((collection.map fun a => disc a.val).dedup).erase E ≠ []) := by
    rcases h with hne | hall
    · rintro ⟨hmem, -⟩
      rw [List.mem_dedup, List.mem_map] at hmem
      obtain ⟨a, ha, haE⟩ := hmem
      exact hne a ha haE
    · rintro ⟨-, herase⟩
      apply herase
      apply nodup_all_eq_erase_nil _ _ (List.nodup_dedup _)
      intro k hk
      rw [List.mem_dedup, List.mem_map] at hk
      obtain ⟨a, ha, hak⟩ := hk
      rw [← hak]
      exact hall a ha
  simp only [check_exclusive, if_neg hcond]
  rfl

/-- C6, witness: a single `rename` item (exclusive kind `ignore` absent). -/
theorem check_exclusive_absent_or_alone_none_witness :
    ((∀ a ∈ [WithSpan.mk (PAttr.rename "x") 0], PAttr.disc a.val ≠ PKind.ignore) ∨
      (∀ a ∈ [WithSpan.mk (PAttr.rename "x") 0], PAttr.disc a.val = PKind.ignore)) ∧
    (check_exclusive PAttr.disc PKind.name PKind.ignore
      [WithSpan.mk (PAttr.rename "x") 0]).2 = none :=
  ⟨Or.inl (by decide),
   check_exclusive_absent_or_alone_none PAttr.disc PKind.name PKind.ignore
     [WithSpan.mk (PAttr.rename "x") 0] (Or.inl (by decide))⟩

/-- C10: for a sequence with k occurrences of the exclusive discriminant
(k ≥ 1) and m items of other discriminants (m ≥ 1), `check_exclusive` emits
exactly k + m diagnostics: the k "Exclusive attribute. Remove either ..."
diagnostics (one per occurrence of the exclusive kind, at that occurrence's
span) all precede the m "cannot be used with ..." diagnostics (one per
non-exclusive item, at that item's span, in sequence order). -/
theorem check_exclusive_all_counts {T D : Type} [DecidableEq D] (disc : T → D)
    (kindName : D → String) (E : D) (collection : List (WithSpan T))
    (h1 : ∃ a ∈ collection, disc a.val = E)
    (h2 : ∃ a ∈ collection, disc a.val ≠ E) :
    (check_exclusive disc kindName E collection).2
      = some ((((collection.filter fun a => disc a.val == E).reverse).map
          (fun a => Diagnostic.mk
            (exclusiveMsg kindName E (otherKeysJoin kindName
              (((collection.map fun a => disc a.val).dedup).erase E)))
            a.span))
        ++ ((collection.filter fun a => ! (disc a.val == E)).map
          (fun a => Diagnostic.mk (cannotMsg kindName E) a.span))) ∧
    ∀ l, (check_exclusive disc kindName E collection).2 = some l →
      l.length = (collection.filter fun a => disc a.val == E).length
        + (collection.filter fun a => ! (disc a.val == E)).length := by
  have hpos := check_exclusive_pos disc kindName E collection h1 h2
  refine ⟨hpos, fun l hl => ?_⟩
  rw [hpos] at hl
  have hA := Option.some.inj hl
  rw [← hA]
  simp

/-- C10, witness: one `ignore` item (exclusive) and one `rename` item. -/
theorem check_exclusive_all_counts_witness :
    (∃ a ∈ [WithSpan.mk PAttr.ignore 0, WithSpan.mk (PAttr.rename "x") 1],
        PAttr.disc a.val = PKind.ignore) ∧
    (∃ a ∈ [WithSpan.mk PAttr.ignore 0, WithSpan.mk (PAttr.rename "x") 1],
        PAttr.disc a.val ≠ PKind.ignore) ∧
    ((check_exclusive PAttr.disc PKind.name PKind.ignore
        [WithSpan.mk PAttr.ignore 0, WithSpan.mk (PAttr.rename "x") 1]).2
      = some (((([WithSpan.mk PAttr.ignore 0, WithSpan.mk (PAttr.rename "x") 1].filter
            fun a => PAttr.disc a.val == PKind.ignore).reverse).map
          (fun a => Diagnostic.mk
            (exclusiveMsg PKind.name PKind.ignore (otherKeysJoin PKind.name
              ((([WithSpan.mk PAttr.ignore 0, WithSpan.mk (PAttr.rename "x") 1].map
                  fun a => PAttr.disc a.val).dedup).erase PKind.ignore)))
            a.span))
        ++ (([WithSpan.mk PAttr.ignore 0, WithSpan.mk (PAttr.rename "x") 1].filter
            fun a => ! (PAttr.disc a.val == PKind.ignore)).map
          (fun a => Diagnostic.mk (cannotMsg PKind.name PKind.ignore) a.span))) ∧
    ∀ l, (check_exclusive PAttr.disc PKind.name PKind.ignore
        [WithSpan.mk PAttr.ignore 0, WithSpan.mk (PAttr.rename "x") 1]).2 = some l →
      l.length = ([WithSpan.mk PAttr.ignore 0, WithSpan.mk (PAttr.rename "x") 1].filter
          fun a => PAttr.disc a.val == PKind.ignore).length
        + ([WithSpan.mk PAttr.ignore 0, WithSpan.mk (PAttr.rename "x") 1].filter
          fun a => ! (PAttr.disc a.val == PKind.ignore)).length) :=
  ⟨by decide, by decide,
   check_exclusive_all_counts PAttr.disc PKind.name PKind.ignore
     [WithSpan.mk PAttr.ignore 0, WithSpan.mk (PAttr.rename "x") 1]
     (by decide) (by decide)⟩

/-! ## Characterization of `parse_attrs` -/

theorem parse_foldl_spec {B T : Type} (parseArgs : B → Except Diagnostic (List T))
    (ns : String) (attrs : List (SynAttr B)) :
    ∀ st : List T × MaybeError,
      attrs.foldl (parseStep parseArgs ns) st
        = (st.1 ++ collectItems parseArgs ns attrs,
           st.2 ++ collectErrs parseArgs ns attrs) := by
  induction attrs with
  | nil =>
    intro st
    simp [collectItems, collectErrs]
  | cons a rest ih =>
    intro st
    rw [List.foldl_cons]
    by_cases h : a.pathIdent = ns
    · cases hp : parseArgs a.body with
      | ok items =>
        have hstep : parseStep parseArgs ns st a = (st.1 ++ items, st.2) := by
          simp [parseStep, h, hp]
        rw [hstep, ih]
        simp [collectItems, collectErrs, h, hp]
      | error e =>
        have hstep : parseStep parseArgs ns st a = (st.1, st.2 ++ [e]) := by
          simp [parseStep, h, hp, MaybeError.push_back]
        rw [hstep, ih]
        simp [collectItems, collectErrs, h, hp]
    · have hstep : parseStep parseArgs ns st a = st := by
        simp [parseStep, h]
      rw [hstep, ih]
      simp [collectItems, collectErrs, h]

theorem parse_attrs_eq {B T : Type} (parseArgs : B → Except Diagnostic (List T))
    (ns : String) (attrs : List (SynAttr B)) :
    parse_attrs parseArgs ns attrs
      = (collectItems parseArgs ns attrs,
         MaybeError.maybe (collectErrs parseArgs ns attrs)) := by
  have h := parse_foldl_spec parseArgs ns attrs ([], MaybeError.new)
  simp only [parse_attrs]
  rw [h]
  simp [MaybeError.new]

theorem collectItems_append {B T : Type} (parseArgs : B → Except Diagnostic (List T))
    (ns : String) (l1 l2 : List (SynAttr B)) :
    collectItems parseArgs ns (l1 ++ l2)
      = collectItems parseArgs ns l1 ++ collectItems parseArgs ns l2 := by
  induction l1 with
  | nil => simp [collectItems]
  | cons a rest ih => simp [collectItems, ih]

theorem collectErrs_append {B T : Type} (parseArgs : B → Except Diagnostic (List T))
    (ns : String) (l1 l2 : List (SynAttr B)) :
    collectErrs parseArgs ns (l1 ++ l2)
      = collectErrs parseArgs ns l1 ++ collectErrs parseArgs ns l2 := by
  induction l1 with
  | nil => simp [collectErrs]
  | cons a rest ih => simp [collectErrs, ih]

theorem collectItems_filter {B T : Type} (parseArgs : B → Except Diagnostic (List T))
    (ns : String) (attrs : List (SynAttr B)) :
    collectItems parseArgs ns attrs
      = collectItems parseArgs ns (attrs.filter fun a => a.pathIdent == ns) := by
  induction attrs with
  | nil => simp [collectItems]
  | cons a rest ih =>
    by_cases h : a.pathIdent = ns
    · rw [show (a :: rest).filter (fun a => a.pathIdent == ns)
          = a :: rest.filter (fun a => a.pathIdent == ns) by simp [List.filter, h]]
      simp [collectItems, h, ih]
    · have hbf : (a.pathIdent == ns) = false := by simp [h]
      rw [show (a :: rest).filter (fun a => a.pathIdent == ns)
          = rest.filter (fun a => a.pathIdent == ns) by simp [List.filter, hbf]]
      simp [collectItems, h, ih]

theorem collectErrs_filter {B T : Type} (parseArgs : B → Except Diagnostic (List T))
    (ns : String) (attrs : List (SynAttr B)) :
    collectErrs parseArgs ns attrs
      = collectErrs parseArgs ns (attrs.filter fun a => a.pathIdent == ns) := by
  induction attrs with
  | nil => simp [collectErrs]
  | cons a rest ih =>
    by_cases h : a.pathIdent = ns
    · rw [show (a :: rest).filter (fun a => a.pathIdent == ns)
          = a :: rest.filter (fun a => a.pathIdent == ns) by simp [List.filter, h]]
      simp [collectErrs, h, ih]
    · have hbf : (a.pathIdent == ns) = false := by simp [h]
      rw [show (a :: rest).filter (fun a => a.pathIdent == ns)
          = rest.filter (fun a => a.pathIdent == ns) by simp [List.filter, hbf]]
      simp [collectErrs, h, ih]

/-! ## Claim theorems: block scanner (`parse_attrs`) -/

/-- C3: for every namespace and block list, `parse_attrs` outputs exactly
the parsed items of the blocks whose leading identifier equals the
namespace, concatenated in block order then item order within each block
(`collectItems`); blocks with a non-matching identifier contribute no items
and no diagnostics — both outputs are unchanged when the non-matching
blocks are discarded beforehand. -/
theorem parse_attrs_filters_namespace {B T : Type}
    (parseArgs : B → Except Diagnostic (List T)) (ns : String)
    (attrs : List (SynAttr B)) :
    (parse_attrs parseArgs ns attrs).1 = collectItems parseArgs ns attrs ∧
    (parse_attrs parseArgs ns attrs).2
      = MaybeError.maybe (collectErrs parseArgs ns attrs) ∧
    (parse_attrs parseArgs ns attrs).1
      = collectItems parseArgs ns (attrs.filter fun a => a.pathIdent == ns) ∧
    (parse_attrs parseArgs ns attrs).2
      = MaybeError.maybe (collectErrs parseArgs ns
          (attrs.filter fun a => a.pathIdent == ns)) := by
  rw [parse_attrs_eq]
  exact ⟨rfl, rfl, collectItems_filter parseArgs ns attrs,
    by rw [← collectErrs_filter]⟩

/-- C4: if one matching block's body fails the item parser, `parse_attrs`
records that block's diagnostic and still collects every item of the
well-formed matching blocks around it: the item vector is that of the
surrounding blocks, and the returned optional error is present and contains
the failing block's diagnostic. -/
theorem parse_attrs_continues_after_failure {B T : Type}
    (parseArgs : B → Except Diagnostic (List T)) (ns : String)
    (pre post : List (SynAttr B)) (b : SynAttr B) (e : Diagnostic)
    (hb : b.pathIdent = ns) (he : parseArgs b.body = Except.error e) :
    (parse_attrs parseArgs ns (pre ++ b :: post)).1
      = (parse_attrs parseArgs ns pre).1 ++ (parse_attrs parseArgs ns post).1 ∧
    ∃ l, (parse_attrs parseArgs ns (pre ++ b :: post)).2 = some l ∧ e ∈ l := by
  have hbitems : collectItems parseArgs ns [b] = [] := by
    simp [collectItems, hb, he]
  have hberrs : collectErrs parseArgs ns [b] = [e] := by
    simp [collectErrs, hb, he]
  have hsplit : pre ++ b :: post = (pre ++ [b]) ++ post := by simp
  constructor
  · rw [parse_attrs_eq, parse_attrs_eq, parse_attrs_eq, hsplit,
      collectItems_append, collectItems_append, hbitems]
    simp
  · refine ⟨collectErrs parseArgs ns (pre ++ b :: post), ?_, ?_⟩
    · rw [parse_attrs_eq]
      apply maybe_of_ne_nil
      apply List.ne_nil_of_mem (a := e)
      rw [hsplit, collectErrs_append, collectErrs_append, hberrs]
      simp
    · rw [hsplit, collectErrs_append, collectErrs_append, hberrs]
      simp

/-- C4, witness: a failing block between two well-formed ones, with the
body type `B` instantiated to pre-parsed results and the item parse routine
to the identity. -/
theorem parse_attrs_continues_after_failure_witness :
    (SynAttr.mk "macro_name"
      (Except.error (Diagnostic.mk "expected token" 5)
        : Except Diagnostic (List PAttr))).pathIdent = "macro_name" ∧
    (fun b : Except Diagnostic (List PAttr) => b)
      (SynAttr.mk "macro_name"
        (Except.error (Diagnostic.mk "expected token" 5)
          : Except Diagnostic (List PAttr))).body
      = Except.error (Diagnostic.mk "expected token" 5) ∧
    ((parse_attrs (fun b : Except Diagnostic (List PAttr) => b) "macro_name"
        ([SynAttr.mk "macro_name" (Except.ok [PAttr.ignore])]
          ++ SynAttr.mk "macro_name" (Except.error (Diagnostic.mk "expected token" 5))
            :: [SynAttr.mk "macro_name" (Except.ok [PAttr.rename "v"])])).1
      = (parse_attrs (fun b : Except Diagnostic (List PAttr) => b) "macro_name"
          [SynAttr.mk "macro_name" (Except.ok [PAttr.ignore])]).1
        ++ (parse_attrs (fun b : Except Diagnostic (List PAttr) => b) "macro_name"
          [SynAttr.mk "macro_name" (Except.ok [PAttr.rename "v"])]).1 ∧
    ∃ l, (parse_attrs (fun b : Except Diagnostic (List PAttr) => b) "macro_name"
        ([SynAttr.mk "macro_name" (Except.ok [PAttr.ignore])]
          ++ SynAttr.mk "macro_name" (Except.error (Diagnostic.mk "expected token" 5))
            :: [SynAttr.mk "macro_name" (Except.ok [PAttr.rename "v"])])).2
      = some l ∧ Diagnostic.mk "expected token" 5 ∈ l) :=
  ⟨rfl, rfl,
   parse_attrs_continues_after_failure
     (fun b : Except Diagnostic (List PAttr) => b) "macro_name"
     [SynAttr.mk "macro_name" (Except.ok [PAttr.ignore])]
     [SynAttr.mk "macro_name" (Except.ok [PAttr.rename "v"])]
     (SynAttr.mk "macro_name" (Except.error (Diagnostic.mk "expected token" 5)))
     (Diagnostic.mk "expected token" 5) rfl rfl⟩

/-! ## Claim theorems: keyword resolver (`known_attribute`) -/

/-- C7: over an enumeration whose kinds have pairwise distinct display
names, `known_attribute` returns the matching kind whenever the
identifier's text equals that kind's display name, and otherwise returns a
diagnostic at the identifier's span that names the unrecognized identifier
and lists every valid kind name joined in enumeration declaration order. -/
theorem known_attribute_resolution {K : Type} (kinds : List K)
    (kindName : K → String) (identity : String) (sp : Span)
    (hnodup : (kinds.map kindName).Nodup) :
    (∀ k ∈ kinds, kindName k = identity →
        known_attribute kinds kindName identity sp = Except.ok k) ∧
    ((∀ k ∈ kinds, kindName k ≠ identity) →
        known_attribute kinds kindName identity sp = Except.error (Diagnostic.mk
          ("Unknown attribute: `" ++ identity ++ "`. Must be one of "
            ++ String.intercalate ", " (kinds.map fun k => "`" ++ kindName k ++ "`"))
          sp)) := by
  constructor
  · intro k hk hkeq
    unfold known_attribute
    cases hf : kinds.find? (fun k => kindName k == identity) with
    | none =>
      rw [List.find?_eq_none] at hf
      have := hf k hk
      rw [beq_iff_eq] at this
      exact absurd hkeq this
    | some k' =>
      have hmem := List.mem_of_find?_eq_some hf
      have hpk := List.find?_some hf
      rw [beq_iff_eq] at hpk
      have hk'k : k' = k :=
        List.inj_on_of_nodup_map hnodup hmem hk (by rw [hpk, hkeq])
      rw [hk'k]
  · intro hall
    unfold known_attribute
    have hf : kinds.find? (fun k => kindName k == identity) = none := by
      rw [List.find?_eq_none]
      intro k hk
      simp [hall k hk]
    rw [hf]

/-- C7, witness: the two-kind enumeration; "rename" resolves, "unknown"
yields the listing diagnostic. -/
theorem known_attribute_resolution_witness :
    (([PKind.rename, PKind.ignore].map PKind.name).Nodup) ∧
    ((∀ k ∈ [PKind.rename, PKind.ignore], PKind.name k = "rename" →
        known_attribute [PKind.rename, PKind.ignore] PKind.name "rename" 7
          = Except.ok k) ∧
    ((∀ k ∈ [PKind.rename, PKind.ignore], PKind.name k ≠ "rename") →
        known_attribute [PKind.rename, PKind.ignore] PKind.name "rename" 7
          = Except.error (Diagnostic.mk
            ("Unknown attribute: `" ++ "rename" ++ "`. Must be one of "
              ++ String.intercalate ", "
                ([PKind.rename, PKind.ignore].map fun k => "`" ++ PKind.name k ++ "`"))
            7))) :=
  ⟨by decide,
   known_attribute_resolution [PKind.rename, PKind.ignore] PKind.name "rename" 7
     (by decide)⟩

/-! ## Claim theorems: error accumulator (`MaybeError`) -/

theorem applyOps_perm (ops : List PushOp) :
    ∀ e : MaybeError,
      List.Perm (ops.foldl (fun e op => match op with
          | PushOp.back d => MaybeError.push_back e d
          | PushOp.front d => MaybeError.push_front e d) e)
        (e ++ ops.map PushOp.diag) := by
  induction ops with
  | nil =>
    intro e
    simp
  | cons op rest ih =>
    intro e
    rw [List.foldl_cons]
    cases op with
    | back d =>
      have := ih (MaybeError.push_back e d)
      refine this.trans ?_
      simp [MaybeError.push_back, PushOp.diag]
    | front d =>
      have := ih (MaybeError.push_front e d)
      refine this.trans ?_
      simp only [MaybeError.push_front, List.cons_append, List.map_cons, PushOp.diag]
      exact (List.perm_middle).symm

/-- C9: draining a `MaybeError` built by any sequence of `push_back` and
`push_front` operations yields `none` exactly when nothing was pushed;
otherwise it yields one combined diagnostic whose ordered sub-messages are
exactly the accumulated deque — a permutation of the pushed diagnostics, so
none is dropped — where a `push_back` appends to the back of the deque so
far and a `push_front` prepends to its front. -/
theorem maybe_error_drain_spec (ops : List PushOp) :
    ((applyOps ops).maybe = none ↔ ops = []) ∧
    ((applyOps ops).maybe = if ops = [] then none else some (applyOps ops)) ∧
    List.Perm (applyOps ops) (ops.map PushOp.diag) ∧
    (∀ d, applyOps (ops ++ [PushOp.back d]) = (applyOps ops).push_back d) ∧
    (∀ d, applyOps (ops ++ [PushOp.front d]) = (applyOps ops).push_front d) := by
  have hperm : List.Perm (applyOps ops) (ops.map PushOp.diag) := by
    have := applyOps_perm ops MaybeError.new
    simpa [applyOps, MaybeError.new] using this
  have hlen : (applyOps ops).length = ops.length := by
    rw [hperm.length_eq, List.length_map]
  have hnil : applyOps ops = [] ↔ ops = [] := by
    constructor
    · intro h
      have := hlen
      rw [h] at this
      exact List.eq_nil_of_length_eq_zero this.symm
    · intro h
      rw [h]
      rfl
  refine ⟨?_, ?_, hperm, ?_, ?_⟩
  · rw [maybe_eq_none_iff]
    exact hnil
  · by_cases h : ops = []
    · rw [if_pos h, maybe_eq_none_iff, hnil]
      exact h
    · rw [if_neg h]
      exact maybe_of_ne_nil _ (fun hc => h (hnil.mp hc))
  · intro d
    simp [applyOps, List.foldl_append]
  · intro d
    simp [applyOps, List.foldl_append]
